import Mathlib

/-!
Shallow embedding of the spec-normalization and schema-resolution module of a
documentation explorer for OpenAPI documents (source file src/lib/openapi.ts,
plus the availability-aware normalizer specified in the design document),
together with proofs of the specified properties.

Modelling conventions: JavaScript strings are Lean String values (a packed
list of characters); the character classes of the source regexes are ASCII
code ranges, written with explicit code points; JavaScript objects reached by
the reference walker are JSON values whose own properties form an
insertion-ordered association list, and the in-operator test of the walker
also sees the members a parsed value inherits through its prototype chain
(the Object.prototype members on plain objects, and the index properties,
the length property and the Array.prototype members on arrays), which are
modelled explicitly; the path map of a document is likewise an
insertion-ordered association list; thrown errors are an Except value.
-/

namespace DiscordDocs

/-- JavaScript values reachable by the reference walker.  A JSON object
keeps its own properties in insertion order and an array its elements;
jsFun is an inherited native function member (opaque to the walker, since
typeof gives "function" and the loop only descends into objects); objProto
and arrProto are the Object.prototype and Array.prototype objects, which
the walker can reach by reading a __proto__ property. -/
inductive JValue : Type where
  | null : JValue
  | bool : Bool → JValue
  | num : Int → JValue
  | str : String → JValue
  | arr : List JValue → JValue
  | obj : List (String × JValue) → JValue
  | jsFun : String → JValue
  | objProto : JValue
  | arrProto : JValue

/-- Own-property lookup on a JSON object (first matching key); one half of
the in-operator test, which also sees prototype-chain members. -/
def jlookup (fields : List (String × JValue)) (key : String) : Option JValue :=
  match fields with
  | [] => none
  | (k, v) :: rest => if k = key then some v else jlookup rest key

/-- The own property names of Object.prototype, all visible through the
in operator on every plain object. -/
def objectProtoKeys : List String :=
  ["constructor", "hasOwnProperty", "isPrototypeOf", "propertyIsEnumerable",
   "toLocaleString", "toString", "valueOf", "__defineGetter__",
   "__defineSetter__", "__lookupGetter__", "__lookupSetter__", "__proto__"]

/-- The own property names of Array.prototype (ES2023), all visible
through the in operator on every array. -/
def arrayProtoOwnKeys : List String :=
  ["length", "constructor", "at", "concat", "copyWithin", "fill", "find",
   "findIndex", "findLast", "findLastIndex", "lastIndexOf", "pop", "push",
   "reverse", "shift", "unshift", "slice", "sort", "splice", "includes",
   "indexOf", "join", "keys", "entries", "values", "forEach", "filter",
   "flat", "flatMap", "map", "every", "some", "reduce", "reduceRight",
   "toReversed", "toSorted", "toSpliced", "with", "toLocaleString",
   "toString"]

/-- The member a plain JSON object inherits from Object.prototype: the
__proto__ accessor yields Object.prototype itself, the other members are
native functions. -/
def objProtoMember (k : String) : Option JValue :=
  if k = "__proto__" then some JValue.objProto
  else if k ∈ objectProtoKeys then some (JValue.jsFun k)
  else none

/-- The own members of Object.prototype: its __proto__ reads as null (the
end of the chain), the rest are native functions. -/
def protoOwnMember (k : String) : Option JValue :=
  if k = "__proto__" then some JValue.null
  else if k ∈ objectProtoKeys then some (JValue.jsFun k)
  else none

/-- True for characters with ASCII codes 48-57, the digits. -/
def isDigitChar (c : Char) : Bool :=
  48 ≤ c.toNat && c.toNat ≤ 57

/-- Digit list to number, most significant first. -/
def digitsToNat (l : List Char) : Nat :=
  l.foldl (fun n c => n * 10 + (c.toNat - 48)) 0

/-- Canonical array-index property names: "0", "1", ... with no leading
zeros, as used by the JavaScript in-operator on arrays. -/
def canonIndex (s : String) : Option Nat :=
  match s.data with
  | [] => none
  | c :: cs =>
    if (c :: cs).all isDigitChar && (c != '0' || cs.isEmpty) then
      some (digitsToNat (c :: cs))
    else none

/-- The non-index member an array exposes to the in operator: its own
length, then the Array.prototype members, then the Object.prototype
members (the __proto__ accessor yields Array.prototype). -/
def arrNonIndexMember (xs : List JValue) (k : String) : Option JValue :=
  if k = "length" then some (JValue.num xs.length)
  else if k ∈ arrayProtoOwnKeys then some (JValue.jsFun k)
  else if k = "__proto__" then some JValue.arrProto
  else if k ∈ objectProtoKeys then some (JValue.jsFun k)
  else none

/-- Property lookup on an array value: a canonical in-range index yields
the element, everything else falls through to the non-index members. -/
def arrLookup (xs : List JValue) (k : String) : Option JValue :=
  match canonIndex k with
  | some i =>
    match xs[i]? with
    | some v => some v
    | none => arrNonIndexMember xs k
  | none => arrNonIndexMember xs k

/-- The member Array.prototype exposes to the in operator: it is itself
an array of length zero whose own members are the Array.prototype
functions, inheriting the rest from Object.prototype. -/
def arrProtoMember (k : String) : Option JValue :=
  if k = "length" then some (JValue.num 0)
  else if k ∈ arrayProtoOwnKeys then some (JValue.jsFun k)
  else if k = "__proto__" then some JValue.objProto
  else if k ∈ objectProtoKeys then some (JValue.jsFun k)
  else none

/-- One lookup step per reference segment, as in the resolveRef loop of
src/lib/openapi.ts: the loop proceeds only when the current value is a
truthy object, and the in-operator test it uses sees own properties first
and then the prototype chain; any other value with segments left, or a
name visible nowhere on the chain, stops the walk with null. -/
def walkPath : JValue → List String → Option JValue
  | v, [] => some v
  | JValue.obj fields, p :: ps =>
    match jlookup fields p with
    | some v => walkPath v ps
    | none =>
      match objProtoMember p with
      | some v => walkPath v ps
      | none => none
  | JValue.arr xs, p :: ps =>
    match arrLookup xs p with
    | some v => walkPath v ps
    | none => none
  | JValue.objProto, p :: ps =>
    match protoOwnMember p with
    | some v => walkPath v ps
    | none => none
  | JValue.arrProto, p :: ps =>
    match arrProtoMember p with
    | some v => walkPath v ps
    | none => none
  | _, _ :: _ => none

/-- Split a character list at every slash; a JavaScript split("/") keeps
empty pieces. -/
def splitOnSlashAux (cur : List Char) : List Char → List (List Char)
  | [] => [cur.reverse]
  | c :: cs =>
    if c = '/' then cur.reverse :: splitOnSlashAux [] cs
    else splitOnSlashAux (c :: cur) cs

/-- String.prototype.split with separator "/". -/
def splitOnSlash (s : String) : List String :=
  (splitOnSlashAux [] s.data).map String.mk

/-- resolveRef from src/lib/openapi.ts (lines 105-120).  The startsWith
guard makes the replacement of the first occurrence of "#/" the same as
stripping the two leading characters, after which the remainder is split
on "/" and the document is walked by successive key lookup. -/
def resolveRef (spec : JValue) (ref : String) : Option JValue :=
  match ref.data with
  | '#' :: '/' :: rest => walkPath spec (splitOnSlash (String.mk rest))
  | _ => none

/-- getSchemaName from src/lib/openapi.ts (lines 122-125): the last
slash-delimited segment of a reference string. -/
def getSchemaName (ref : String) : String :=
  (splitOnSlash ref).getLastD ""

/-- ASCII lowercasing of one character, the effect of toLowerCase on the
code points the slugify regexes distinguish. -/
def toLowerChar (c : Char) : Char :=
  if 65 ≤ c.toNat ∧ c.toNat ≤ 90 then Char.ofNat (c.toNat + 32) else c

/-- The character class [a-z0-9] of the slugify replacement regex. -/
def isLowerAlnum (c : Char) : Bool :=
  (97 ≤ c.toNat && c.toNat ≤ 122) || (48 ≤ c.toNat && c.toNat ≤ 57)

/-- Replace every maximal run of characters outside [a-z0-9] by one hyphen.
The flag records whether the run being scanned has already emitted its
hyphen. -/
def collapseRuns : Bool → List Char → List Char
  | _, [] => []
  | inRun, c :: cs =>
    if isLowerAlnum c then c :: collapseRuns false cs
    else if inRun then collapseRuns true cs
    else '-' :: collapseRuns true cs

/-- Drop one leading hyphen: the first alternative of the trimming regex,
which can match at most once because the anchor pins it to position zero. -/
def dropLeadHyphen : List Char → List Char
  | [] => []
  | c :: rest => if c = '-' then rest else c :: rest

/-- Drop one trailing hyphen: the second alternative of the trimming
regex, which can match at most once at the end of the string. -/
def dropTrailHyphen : List Char → List Char
  | [] => []
  | [c] => if c = '-' then [] else [c]
  | c :: cs => c :: dropTrailHyphen cs

/-- slugify from src/lib/openapi.ts (lines 127-132): lowercase, collapse
runs of characters outside [a-z0-9] to single hyphens, trim one hyphen from
each end. -/
def slugify (text : String) : String :=
  String.mk (dropTrailHyphen (dropLeadHyphen (collapseRuns false
    (text.data.map toLowerChar))))

/-- Characters a slug may contain: [a-z0-9] and the hyphen. -/
def slugChar (c : Char) : Bool :=
  isLowerAlnum c || c == '-'

/-- No two adjacent hyphens anywhere in the list. -/
def noAdjacentHyphens : List Char → Bool
  | a :: b :: rest => !(a == '-' && b == '-') && noAdjacentHyphens (b :: rest)
  | _ => true

/-- Well-formedness of a slug: only [a-z0-9-], no two adjacent hyphens,
and no hyphen at either end. -/
def slugOk (s : String) : Bool :=
  s.data.all slugChar && noAdjacentHyphens s.data &&
    !(s.data.head? == some '-') && !(s.data.getLast? == some '-')

/-- Substring test: isPrefixOfB pat l is true when pat starts l. -/
def isPrefixOfB : List Char → List Char → Bool
  | [], _ => true
  | _ :: _, [] => false
  | a :: as, b :: bs => a == b && isPrefixOfB as bs

/-- Substring test underlying String.prototype.includes. -/
def containsSub (pat : List Char) : List Char → Bool
  | [] => isPrefixOfB pat []
  | c :: rest => isPrefixOfB pat (c :: rest) || containsSub pat rest

/-- String.prototype.includes: pat occurs somewhere in s. -/
def strIncludes (s pat : String) : Bool :=
  containsSub pat.data s.data

/-- getCategoryFromPath from src/lib/openapi.ts (lines 36-89): the first
tag when the tag list is nonempty, else the ordered substring rules, else
the first nonempty path segment, else "General". -/
def getCategoryFromPath (path : String) (tags : Option (List String)) : String :=
  match tags with
  | some (t :: _) => t
  | _ =>
    let segments := (splitOnSlash path).filter (fun s => !s.isEmpty)
    if strIncludes path "/applications" then
      if strIncludes path "/commands" then "Application Commands"
      else if strIncludes path "/entitlements" then "Monetization"
      else if strIncludes path "/emojis" then "Application Emojis"
      else if strIncludes path "/role-connections" then "Role Connections"
      else "Applications"
    else if strIncludes path "/channels" then
      if strIncludes path "/messages" then "Messages"
      else if strIncludes path "/invites" then "Invites"
      else if strIncludes path "/pins" then "Pins"
      else if strIncludes path "/webhooks" then "Webhooks"
      else if strIncludes path "/threads" then "Threads"
      else if strIncludes path "/reactions" then "Reactions"
      else "Channels"
    else if strIncludes path "/guilds" then
      if strIncludes path "/members" then "Guild Members"
      else if strIncludes path "/roles" then "Roles"
      else if strIncludes path "/bans" then "Moderation"
      else if strIncludes path "/emojis" then "Emojis"
      else if strIncludes path "/stickers" then "Stickers"
      else if strIncludes path "/scheduled-events" then "Scheduled Events"
      else if strIncludes path "/audit-log" then "Audit Log"
      else if strIncludes path "/integrations" then "Integrations"
      else if strIncludes path "/webhooks" then "Webhooks"
      else if strIncludes path "/voice-states" then "Voice"
      else if strIncludes path "/onboarding" then "Onboarding"
      else if strIncludes path "/welcome-screen" then "Welcome Screen"
      else "Guilds"
    else if strIncludes path "/users" then "Users"
    else if strIncludes path "/voice" then "Voice"
    else if strIncludes path "/webhooks" then "Webhooks"
    else if strIncludes path "/invites" then "Invites"
    else if strIncludes path "/stickers" then "Stickers"
    else if strIncludes path "/stage-instances" then "Stage Instances"
    else if strIncludes path "/oauth2" then "OAuth2"
    else if strIncludes path "/gateway" then "Gateway"
    else if strIncludes path "/interactions" then "Interactions"
    else (segments.head?).getD "General"

/-- OpenAPI Operation (types file): the normalizer reads only the tag
list; the payload fields are carried through untouched and modelled as raw
JSON values. -/
structure Operation where
  operationId : Option String := none
  summary : Option String := none
  description : Option String := none
  tags : Option (List String) := none
  parameters : Option JValue := none
  requestBody : Option JValue := none
  responses : Option JValue := none
  security : Option JValue := none
  deprecated : Option Bool := none

/-- OpenAPI PathItem (types file): up to one operation per method. -/
structure PathItem where
  summary : Option String := none
  description : Option String := none
  get : Option Operation := none
  post : Option Operation := none
  put : Option Operation := none
  delete : Option Operation := none
  patch : Option Operation := none
  options : Option Operation := none
  head : Option Operation := none
  parameters : Option JValue := none

/-- OpenAPI document (types file).  A JavaScript object keeps its
properties in insertion order, so the path map is an insertion-ordered
association list with the distinct keys of the JSON object. -/
structure OpenAPISpec where
  openapi : Option String := none
  info : Option JValue := none
  servers : Option JValue := none
  paths : List (String × PathItem)
  components : Option JValue := none
  tags : Option JValue := none
  security : Option JValue := none

/-- The normalized endpoint record (types file). -/
structure ParsedEndpoint where
  path : String
  method : String
  operation : Operation
  category : String

/-- A named bucket of endpoints (types file). -/
structure Category where
  name : String
  endpoints : List ParsedEndpoint

/-- The seven methods scanned by parseEndpoints, in source order. -/
inductive HttpMethod : Type where
  | get | post | put | delete | patch | options | head
  deriving DecidableEq

/-- The methods array of parseEndpoints. -/
def methodsList : List HttpMethod :=
  [.get, .post, .put, .delete, .patch, .options, .head]

/-- method.toUpperCase() for each scanned method. -/
def methodStr : HttpMethod → String
  | .get => "GET"
  | .post => "POST"
  | .put => "PUT"
  | .delete => "DELETE"
  | .patch => "PATCH"
  | .options => "OPTIONS"
  | .head => "HEAD"

/-- The operation a path item holds for one method. -/
def itemOp (item : PathItem) : HttpMethod → Option Operation
  | .get => item.get
  | .post => item.post
  | .put => item.put
  | .delete => item.delete
  | .patch => item.patch
  | .options => item.options
  | .head => item.head

/-- The record pushed by parseEndpoints for one present operation. -/
def endpointOfOp (path : String) (m : HttpMethod) (op : Operation) : ParsedEndpoint :=
  { path := path
    method := methodStr m
    operation := op
    category := getCategoryFromPath path op.tags }

/-- The inner loop of parseEndpoints over one path entry. -/
def entryEndpoints (path : String) (item : PathItem) : List ParsedEndpoint :=
  methodsList.filterMap (fun m => (itemOp item m).map (endpointOfOp path m))

/-- parseEndpoints from src/lib/openapi.ts (lines 13-34). -/
def parseEndpoints (spec : OpenAPISpec) : List ParsedEndpoint :=
  spec.paths.flatMap (fun e => entryEndpoints e.1 e.2)

/-- The Map.get/push/Map.set step of groupByCategory: append the endpoint
to the list held at its category key, keeping the key at its original
position, or append a fresh key at the end (JavaScript Map insertion
order). -/
def insertEndpoint : List (String × List ParsedEndpoint) → String → ParsedEndpoint →
    List (String × List ParsedEndpoint)
  | [], c, e => [(c, [e])]
  | (k, l) :: rest, c, e =>
    if k = c then (k, l ++ [e]) :: rest else (k, l) :: insertEndpoint rest c e

/-- The grouping loop of groupByCategory. -/
def groupPairs (endpoints : List ParsedEndpoint) : List (String × List ParsedEndpoint) :=
  endpoints.foldl (fun m e => insertEndpoint m e.category e) []

/-- groupByCategory from src/lib/openapi.ts (lines 91-103).  The sort
comparator a.name.localeCompare(b.name) depends on the runtime locale; the
locale order is therefore an explicit parameter le, and the stable
JavaScript sort is modelled by mergeSort. -/
def groupByCategory (le : String → String → Bool) (endpoints : List ParsedEndpoint) :
    List Category :=
  ((groupPairs endpoints).map (fun p => Category.mk p.1 p.2)).mergeSort
    (fun a b => le a.name b.name)

/-- First-match lookup in the path map, the JavaScript property access
spec.paths[p] (keys of a JSON object are distinct). -/
def lookupPath : List (String × PathItem) → String → Option PathItem
  | [], _ => none
  | (k, v) :: rest, p => if k = p then some v else lookupPath rest p

/-- The operation one document holds for a (path, method) key. -/
def opAt (spec : OpenAPISpec) (path : String) (m : HttpMethod) : Option Operation :=
  match lookupPath spec.paths path with
  | some item => itemOp item m
  | none => none

/-- Membership of a (method, path) key in the per-document operation set
built by the two-document normalizer. -/
def hasOp (spec : OpenAPISpec) (path : String) (m : HttpMethod) : Bool :=
  (opAt spec path m).isSome

/-- Modelled from the spec: the availability tag of the two-document
normalizer parseEndpointsWithAvailability, whose source file is not part
of the given sources (only its consumer DocsPage.tsx is). -/
inductive EndpointAvailability : Type where
  | both | previewOnly | stableOnly
  deriving DecidableEq

/-- Modelled from the spec: the endpoint record produced by
parseEndpointsWithAvailability, a ParsedEndpoint with the availability
tag. -/
structure ParsedEndpointA where
  path : String
  method : String
  operation : Operation
  category : String
  availability : EndpointAvailability

/-- Modelled from the spec: one (path, method) step of
parseEndpointsWithAvailability.  If neither document has the operation the
key is skipped; if only one has it that document is the source of truth;
availability is both, preview-only or stable-only according to which
per-document sets hold the key. -/
def availEndpoint (preview stable : OpenAPISpec) (path : String) (m : HttpMethod) :
    Option ParsedEndpointA :=
  match opAt preview path m, opAt stable path m with
  | none, none => none
  | some op, none =>
    some { path := path, method := methodStr m, operation := op
           category := getCategoryFromPath path op.tags
           availability := EndpointAvailability.previewOnly }
  | none, some op =>
    some { path := path, method := methodStr m, operation := op
           category := getCategoryFromPath path op.tags
           availability := EndpointAvailability.stableOnly }
  | some op, some _ =>
    some { path := path, method := methodStr m, operation := op
           category := getCategoryFromPath path op.tags
           availability := EndpointAvailability.both }

/-- Modelled from the spec: the union of all path strings appearing in
either document, preview paths first, then the stable paths not already
seen. -/
def unionPaths (preview stable : OpenAPISpec) : List String :=
  preview.paths.map Prod.fst ++
    ((stable.paths.map Prod.fst).filter
      (fun p => !(preview.paths.map Prod.fst).contains p))

/-- Modelled from the spec: parseEndpointsWithAvailability, the
two-document normalizer whose source file is not part of the given
sources.  For each path in the union and each of the seven methods an
endpoint is produced exactly when at least one document holds the
operation. -/
def parseEndpointsWithAvailability (preview stable : OpenAPISpec) :
    List ParsedEndpointA :=
  (unionPaths preview stable).flatMap
    (fun p => methodsList.filterMap (fun m => availEndpoint preview stable p m))

/-- An HTTP response for the spec document: the success flag of the
response and its body parsed as one JSON document, typed as the raw
spec. -/
structure SpecResponse where
  ok : Bool
  body : OpenAPISpec

/-- fetchOpenAPISpec from src/lib/openapi.ts (lines 5-11): throw a single
descriptive error on a non-success status, otherwise return the parsed
body; the thrown error is modelled by Except.error. -/
def fetchOpenAPISpec (response : SpecResponse) : Except String OpenAPISpec :=
  if response.ok then Except.ok response.body
  else Except.error "Failed to fetch OpenAPI spec"

/-- How many endpoints of the list carry the given (path, method) key. -/
def countKey (l : List ParsedEndpoint) (p ms : String) : Nat :=
  (l.filter (fun e => e.path == p && e.method == ms)).length

/-- How many availability-tagged endpoints carry the given (path, method)
key. -/
def countKeyA (l : List ParsedEndpointA) (p ms : String) : Nat :=
  (l.filter (fun e => e.path == p && e.method == ms)).length

/-- A sample schema object stored under components.schemas.User, for the
concrete resolveRef checks. -/
def userSchema : JValue :=
  JValue.obj [("type", JValue.str "object"),
    ("properties", JValue.obj [("id", JValue.obj [("type", JValue.str "string")])])]

/-- The own properties of the sample document. -/
def sampleDocFields : List (String × JValue) :=
  [("openapi", JValue.str "3.1.0"),
   ("paths", JValue.obj []),
   ("components", JValue.obj [("schemas", JValue.obj
     [("User", userSchema), ("Message", JValue.obj [("type", JValue.str "object")])])])]

/-- A sample document with a components.schemas section, for the concrete
resolveRef checks. -/
def sampleDoc : JValue :=
  JValue.obj sampleDocFields

/-- First-match lookup in the grouping map, the Map.get of
groupByCategory (keys are distinct by construction). -/
def lookupGroup : List (String × List ParsedEndpoint) → String → Option (List ParsedEndpoint)
  | [], _ => none
  | (k, v) :: rest, c => if k = c then some v else lookupGroup rest c

/-- The value the grouping map holds after the endpoints with the given
category are appended to a starting value. -/
def combineGroup (o : Option (List ParsedEndpoint)) (f : List ParsedEndpoint) :
    Option (List ParsedEndpoint) :=
  match o with
  | some l => some (l ++ f)
  | none => if f.isEmpty then none else some f

/-- A sample operation used by the concrete fixtures. -/
def sampleOpList : Operation :=
  { summary := some "List items" }

/-- A sample tagged operation used by the concrete fixtures. -/
def sampleOpCreate : Operation :=
  { summary := some "Create item", tags := some ["Foo"] }

/-- A sample one-document fixture: /a with GET and POST, /b with DELETE. -/
def sampleSpecOne : OpenAPISpec :=
  { paths := [("/a", { get := some sampleOpList, post := some sampleOpCreate }),
              ("/b", { delete := some sampleOpList })] }

/-- A sample endpoint list with two categories, for the grouping fixture. -/
def sampleEndpointList : List ParsedEndpoint :=
  [{ path := "/users/@me", method := "GET", operation := sampleOpList,
     category := "Users" },
   { path := "/channels/1", method := "GET", operation := sampleOpList,
     category := "Channels" },
   { path := "/users/@me", method := "PATCH", operation := sampleOpList,
     category := "Users" }]

/-- A concrete total preorder on strings, standing in for one locale
collation in the grouping fixture. -/
def leLen (a b : String) : Bool :=
  decide (a.length ≤ b.length)

/-- The preview document of the two-document fixture: /a GET and /b GET. -/
def previewFixture : OpenAPISpec :=
  { paths := [("/a", { get := some sampleOpList }),
              ("/b", { get := some sampleOpList })] }

/-- The stable document of the two-document fixture: /a GET and /c POST. -/
def stableFixture : OpenAPISpec :=
  { paths := [("/a", { get := some sampleOpList }),
              ("/c", { post := some sampleOpCreate })] }

/-! ### Lemmas about slugify -/

theorem dropTrailHyphen_singleton (c : Char) :
    dropTrailHyphen [c] = if c = '-' then [] else [c] := rfl

theorem dropTrailHyphen_cons_cons (a b : Char) (r : List Char) :
    dropTrailHyphen (a :: b :: r) = a :: dropTrailHyphen (b :: r) := rfl

theorem isLowerAlnum_ranges {c : Char} (h : isLowerAlnum c = true) :
    (97 ≤ c.toNat ∧ c.toNat ≤ 122) ∨ (48 ≤ c.toNat ∧ c.toNat ≤ 57) := by
  simpa [isLowerAlnum, Bool.or_eq_true, Bool.and_eq_true, decide_eq_true_eq] using h

theorem slugChar_of_isLowerAlnum {c : Char} (h : isLowerAlnum c = true) :
    slugChar c = true := by
  simp [slugChar, h]

theorem slugChar_hyphen : slugChar '-' = true := by decide

theorem beq_hyphen_false_of_isLowerAlnum {c : Char} (h : isLowerAlnum c = true) :
    (c == '-') = false := by
  cases hb : (c == '-') with
  | false => rfl
  | true =>
    have hc : c = '-' := by simpa using hb
    subst hc
    exact absurd h (by decide)

theorem slugChar_cases {c : Char} (h : slugChar c = true) :
    isLowerAlnum c = true ∨ c = '-' := by
  rcases Bool.or_eq_true_iff.mp h with h1 | h1
  · exact Or.inl h1
  · exact Or.inr (by simpa using h1)

theorem toLowerChar_id_of_slugChar {c : Char} (h : slugChar c = true) :
    toLowerChar c = c := by
  unfold toLowerChar
  rw [if_neg]
  intro hc
  rcases slugChar_cases h with h1 | h1
  · rcases isLowerAlnum_ranges h1 with h2 | h2 <;> omega
  · subst h1
    exact absurd hc (by decide)

theorem map_toLowerChar_id {l : List Char} (h : ∀ c ∈ l, slugChar c = true) :
    l.map toLowerChar = l := by
  induction l with
  | nil => rfl
  | cons c cs ih =>
    simp only [List.map_cons]
    rw [toLowerChar_id_of_slugChar (h c (List.mem_cons_self c cs)),
      ih (fun d hd => h d (List.mem_cons_of_mem c hd))]

theorem mem_collapseRuns_slugChar :
    ∀ (l : List Char) (b : Bool), ∀ c ∈ collapseRuns b l, slugChar c = true := by
  intro l
  induction l with
  | nil => intro b c hc; simp [collapseRuns] at hc
  | cons d ds ih =>
    intro b c hc
    by_cases hd : isLowerAlnum d = true
    · rw [collapseRuns, if_pos hd] at hc
      rcases List.mem_cons.mp hc with rfl | hmem
      · exact slugChar_of_isLowerAlnum hd
      · exact ih false c hmem
    · rw [collapseRuns, if_neg hd] at hc
      cases b with
      | true => simpa using ih true c (by simpa using hc)
      | false =>
        rcases List.mem_cons.mp (by simpa using hc) with rfl | hmem
        · exact slugChar_hyphen
        · exact ih true c hmem

theorem head_collapseRuns_true :
    ∀ (l : List Char) (c : Char), (collapseRuns true l).head? = some c →
      isLowerAlnum c = true := by
  intro l
  induction l with
  | nil => intro c h; simp [collapseRuns] at h
  | cons d ds ih =>
    intro c h
    by_cases hd : isLowerAlnum d = true
    · rw [collapseRuns, if_pos hd] at h
      simp only [List.head?_cons, Option.some.injEq] at h
      subst h; exact hd
    · rw [collapseRuns, if_neg hd] at h
      exact ih c (by simpa using h)

theorem noAdjacentHyphens_nil : noAdjacentHyphens [] = true := rfl

theorem noAdjacentHyphens_singleton (c : Char) : noAdjacentHyphens [c] = true := rfl

theorem noAdjacentHyphens_cons_cons (a b : Char) (r : List Char) :
    noAdjacentHyphens (a :: b :: r) =
      (!(a == '-' && b == '-') && noAdjacentHyphens (b :: r)) := rfl

theorem noAdjacentHyphens_cons (a : Char) (l : List Char)
    (hl : noAdjacentHyphens l = true)
    (h : ∀ b, l.head? = some b → (a == '-' && b == '-') = false) :
    noAdjacentHyphens (a :: l) = true := by
  cases l with
  | nil => rfl
  | cons b r =>
    rw [noAdjacentHyphens_cons_cons, h b rfl, hl]
    rfl

theorem noAdjacentHyphens_tail {a : Char} {l : List Char}
    (h : noAdjacentHyphens (a :: l) = true) : noAdjacentHyphens l = true := by
  cases l with
  | nil => rfl
  | cons b r =>
    rw [noAdjacentHyphens_cons_cons] at h
    exact (Bool.and_eq_true_iff.mp h).2

theorem noAdjacentHyphens_collapseRuns :
    ∀ (l : List Char) (b : Bool), noAdjacentHyphens (collapseRuns b l) = true := by
  intro l
  induction l with
  | nil => intro b; rfl
  | cons d ds ih =>
    intro b
    by_cases hd : isLowerAlnum d = true
    · rw [collapseRuns, if_pos hd]
      refine noAdjacentHyphens_cons _ _ (ih false) ?_
      intro x _
      rw [beq_hyphen_false_of_isLowerAlnum hd, Bool.false_and]
    · rw [collapseRuns, if_neg hd]
      cases b with
      | true => simpa using ih true
      | false =>
        simp only [if_neg, Bool.false_eq_true, reduceIte]
        refine noAdjacentHyphens_cons _ _ (ih true) ?_
        intro x hx
        rw [beq_hyphen_false_of_isLowerAlnum (head_collapseRuns_true ds x hx),
          Bool.and_false]

theorem head_dropLeadHyphen {l : List Char} (h : noAdjacentHyphens l = true) :
    (dropLeadHyphen l).head? ≠ some '-' := by
  cases l with
  | nil => simp [dropLeadHyphen]
  | cons c r =>
    by_cases hc : c = '-'
    · subst hc
      rw [dropLeadHyphen, if_pos rfl]
      cases r with
      | nil => simp
      | cons d s =>
        rw [noAdjacentHyphens_cons_cons] at h
        have hd : (d == '-') = false := by
          rcases Bool.and_eq_true_iff.mp h with ⟨h1, _⟩
          simpa using h1
        simp only [List.head?_cons, ne_eq, Option.some.injEq]
        intro hds
        rw [hds] at hd
        simp at hd
    · rw [dropLeadHyphen, if_neg hc]
      simpa using hc

theorem head?_dropTrailHyphen {l : List Char} {c : Char}
    (h : (dropTrailHyphen l).head? = some c) : l.head? = some c := by
  cases l with
  | nil => simp [dropTrailHyphen] at h
  | cons a t =>
    cases t with
    | nil =>
      by_cases ha : a = '-'
      · rw [dropTrailHyphen_singleton, if_pos ha] at h
        simp at h
      · rw [dropTrailHyphen_singleton, if_neg ha] at h
        exact h
    | cons b r =>
      rw [dropTrailHyphen_cons_cons] at h
      simpa using h

theorem mem_dropTrailHyphen {c : Char} :
    ∀ {l : List Char}, c ∈ dropTrailHyphen l → c ∈ l := by
  intro l
  induction l with
  | nil => intro h; simp [dropTrailHyphen] at h
  | cons a t ih =>
    cases t with
    | nil =>
      intro h
      by_cases ha : a = '-'
      · rw [dropTrailHyphen_singleton, if_pos ha] at h
        simp at h
      · rw [dropTrailHyphen_singleton, if_neg ha] at h
        exact h
    | cons b r =>
      intro h
      rw [dropTrailHyphen_cons_cons] at h
      rcases List.mem_cons.mp h with rfl | hm
      · exact List.mem_cons_self _ _
      · exact List.mem_cons_of_mem _ (ih hm)

theorem dropTrailHyphen_eq_nil {l : List Char} (h : dropTrailHyphen l = []) :
    l = [] ∨ l = ['-'] := by
  cases l with
  | nil => exact Or.inl rfl
  | cons a t =>
    cases t with
    | nil =>
      by_cases ha : a = '-'
      · subst ha; exact Or.inr rfl
      · rw [dropTrailHyphen_singleton, if_neg ha] at h
        exact absurd h (by simp)
    | cons b r =>
      rw [dropTrailHyphen_cons_cons] at h
      exact absurd h (by simp)

theorem noAdjacentHyphens_dropTrailHyphen :
    ∀ {l : List Char}, noAdjacentHyphens l = true →
      noAdjacentHyphens (dropTrailHyphen l) = true := by
  intro l
  induction l with
  | nil => intro _; rfl
  | cons a t ih =>
    cases t with
    | nil =>
      intro _
      by_cases ha : a = '-'
      · rw [dropTrailHyphen_singleton, if_pos ha]; rfl
      · rw [dropTrailHyphen_singleton, if_neg ha]; rfl
    | cons b r =>
      intro h
      rw [dropTrailHyphen_cons_cons]
      refine noAdjacentHyphens_cons _ _ (ih (noAdjacentHyphens_tail h)) ?_
      intro x hx
      have hb : (b :: r).head? = some x := head?_dropTrailHyphen hx
      simp only [List.head?_cons, Option.some.injEq] at hb
      subst hb
      rw [noAdjacentHyphens_cons_cons] at h
      rcases Bool.and_eq_true_iff.mp h with ⟨h1, _⟩
      revert h1
      cases (a == '-') <;> cases (b == '-') <;> simp

theorem getLast?_dropTrailHyphen :
    ∀ {l : List Char}, noAdjacentHyphens l = true →
      (dropTrailHyphen l).getLast? ≠ some '-' := by
  intro l
  induction l with
  | nil => intro _; simp [dropTrailHyphen]
  | cons a t ih =>
    cases t with
    | nil =>
      intro _
      by_cases ha : a = '-'
      · rw [dropTrailHyphen_singleton, if_pos ha]; simp
      · rw [dropTrailHyphen_singleton, if_neg ha]
        simpa using ha
    | cons b r =>
      intro h
      rw [dropTrailHyphen_cons_cons]
      rcases hX : dropTrailHyphen (b :: r) with _ | ⟨x, xs⟩
      · rcases dropTrailHyphen_eq_nil hX with h0 | h0
        · exact absurd h0 (by simp)
        · have hb : b = '-' := by
            have := congrArg List.head? h0
            simpa using this
          subst hb
          rw [noAdjacentHyphens_cons_cons] at h
          rcases Bool.and_eq_true_iff.mp h with ⟨h1, _⟩
          have ha : (a == '-') = false := by simpa using h1
          simp only [List.getLast?_singleton, ne_eq, Option.some.injEq]
          intro hac
          rw [hac] at ha
          simp at ha
      · have := ih (noAdjacentHyphens_tail h)
        rw [hX] at this
        rw [List.getLast?_cons_cons]
        exact this

theorem slugify_data (t : String) :
    (slugify t).data =
      dropTrailHyphen (dropLeadHyphen (collapseRuns false (t.data.map toLowerChar))) := rfl

theorem slug_data_props (t : String) :
    (∀ c ∈ (slugify t).data, slugChar c = true) ∧
    noAdjacentHyphens (slugify t).data = true ∧
    (slugify t).data.head? ≠ some '-' ∧
    (slugify t).data.getLast? ≠ some '-' := by
  have hL : ∀ c ∈ collapseRuns false (t.data.map toLowerChar), slugChar c = true :=
    mem_collapseRuns_slugChar _ false
  have hN : noAdjacentHyphens (collapseRuns false (t.data.map toLowerChar)) = true :=
    noAdjacentHyphens_collapseRuns _ false
  have hmem1 : ∀ c ∈ dropLeadHyphen (collapseRuns false (t.data.map toLowerChar)),
      slugChar c = true := by
    intro c hc
    apply hL
    rcases hE : collapseRuns false (t.data.map toLowerChar) with _ | ⟨d, ds⟩
    · rw [hE] at hc; simp [dropLeadHyphen] at hc
    · rw [hE] at hc
      by_cases hd : d = '-'
      · rw [dropLeadHyphen, if_pos hd] at hc
        exact List.mem_cons_of_mem _ hc
      · rw [dropLeadHyphen, if_neg hd] at hc
        exact hc
  have hN1 : noAdjacentHyphens (dropLeadHyphen
      (collapseRuns false (t.data.map toLowerChar))) = true := by
    rcases hE : collapseRuns false (t.data.map toLowerChar) with _ | ⟨d, ds⟩
    · rfl
    · by_cases hd : d = '-'
      · rw [dropLeadHyphen, if_pos hd]
        rw [hE] at hN
        exact noAdjacentHyphens_tail hN
      · rw [dropLeadHyphen, if_neg hd]
        rw [hE] at hN
        exact hN
  have hH1 : (dropLeadHyphen (collapseRuns false (t.data.map toLowerChar))).head? ≠
      some '-' := head_dropLeadHyphen hN
  refine ⟨?_, ?_, ?_, ?_⟩
  · intro c hc
    rw [slugify_data] at hc
    exact hmem1 c (mem_dropTrailHyphen hc)
  · rw [slugify_data]
    exact noAdjacentHyphens_dropTrailHyphen hN1
  · rw [slugify_data]
    intro hc
    exact hH1 (head?_dropTrailHyphen hc)
  · rw [slugify_data]
    exact getLast?_dropTrailHyphen hN1

theorem dropLeadHyphen_id {l : List Char} (h : l.head? ≠ some '-') :
    dropLeadHyphen l = l := by
  cases l with
  | nil => rfl
  | cons c r =>
    rw [dropLeadHyphen, if_neg]
    intro hc
    exact h (by rw [hc]; rfl)

theorem dropTrailHyphen_id :
    ∀ {l : List Char}, l.getLast? ≠ some '-' → dropTrailHyphen l = l := by
  intro l
  induction l with
  | nil => intro _; rfl
  | cons a t ih =>
    cases t with
    | nil =>
      intro h
      rw [dropTrailHyphen, if_neg]
      intro ha
      exact h (by rw [ha]; rfl)
    | cons b r =>
      intro h
      rw [dropTrailHyphen_cons_cons]
      rw [ih (fun hc => h (List.getLast?_cons_cons.trans hc))]

theorem collapseRuns_id :
    ∀ (l : List Char), (∀ c ∈ l, slugChar c = true) → noAdjacentHyphens l = true →
      ∀ b, (b = true → l.head? ≠ some '-') → collapseRuns b l = l := by
  intro l
  induction l with
  | nil => intro _ _ b _; rfl
  | cons c cs ih =>
    intro hall hadj b hb
    by_cases hc : isLowerAlnum c = true
    · rw [collapseRuns, if_pos hc]
      rw [ih (fun d hd => hall d (List.mem_cons_of_mem c hd))
        (noAdjacentHyphens_tail hadj) false (by intro h; exact absurd h (by simp))]
    · have hcs : c = '-' := by
        rcases slugChar_cases (hall c (List.mem_cons_self c cs)) with h1 | h1
        · exact absurd h1 hc
        · exact h1
      subst hcs
      cases b with
      | true => exact absurd rfl (fun h => hb h rfl)
      | false =>
        rw [collapseRuns, if_neg hc]
        simp only [Bool.false_eq_true, reduceIte]
        rw [ih (fun d hd => hall d (List.mem_cons_of_mem _ hd))
          (noAdjacentHyphens_tail hadj) true ?_]
        intro _ hh
        cases cs with
        | nil => simp at hh
        | cons d ds =>
          rw [noAdjacentHyphens_cons_cons] at hadj
          rcases Bool.and_eq_true_iff.mp hadj with ⟨h1, _⟩
          have hd : (d == '-') = false := by simpa using h1
          simp only [List.head?_cons, Option.some.injEq] at hh
          rw [hh] at hd
          simp at hd

/-! ### Claim theorems for slugify -/

/-- C6: every slugify output contains only lowercase ASCII letters, digits
and hyphens, has no two adjacent hyphens and no hyphen at either end, and
slugify "Get /channels/{id}/messages" is "get-channels-id-messages". -/
theorem slugify_wellformed :
    (∀ t : String, slugOk (slugify t) = true) ∧
    slugify "Get /channels/{id}/messages" = "get-channels-id-messages" := by
  constructor
  · intro t
    obtain ⟨h1, h2, h3, h4⟩ := slug_data_props t
    simp only [slugOk, Bool.and_eq_true, List.all_eq_true, Bool.not_eq_true',
      beq_eq_false_iff_ne, ne_eq]
    exact ⟨⟨⟨h1, h2⟩, h3⟩, h4⟩
  · decide

/-- C10: slugify is idempotent: applying it to its own output returns the
output unchanged. -/
theorem slugify_idempotent : ∀ t : String, slugify (slugify t) = slugify t := by
  intro t
  obtain ⟨h1, h2, h3, h4⟩ := slug_data_props t
  show String.mk (dropTrailHyphen (dropLeadHyphen (collapseRuns false
    ((slugify t).data.map toLowerChar)))) = slugify t
  rw [map_toLowerChar_id h1, collapseRuns_id _ h1 h2 false (by intro h; exact absurd h (by simp)),
    dropLeadHyphen_id h3, dropTrailHyphen_id h4]

/-! ### Claim theorems for category derivation, reference resolution,
the spec loader, and idempotence -/

/-- C4: the first tag wins when present, regardless of the path; with no
tags the ordered substring rules decide, so /guilds/{id}/bans yields
Moderation and /users/@me yields Users; with no rule matching, the first
nonempty path segment is used, and "General" when there is none. -/
theorem category_derivation :
    (∀ (p t : String) (ts : List String), getCategoryFromPath p (some (t :: ts)) = t) ∧
    getCategoryFromPath "/guilds/{id}/bans" none = "Moderation" ∧
    getCategoryFromPath "/users/@me" none = "Users" ∧
    getCategoryFromPath "/foo/bar" none = "foo" ∧
    getCategoryFromPath "" none = "General" ∧
    getCategoryFromPath "///" none = "General" := by
  refine ⟨fun p t ts => rfl, ?_, ?_, ?_, ?_, ?_⟩ <;> decide

/-- C5 counterexample: the segment toString is no key of the sample
document, yet resolveRef does not return null for it: the in-operator
test of the source finds the inherited Object.prototype member, and the
walk returns that native function.  So the claim that every segment
absent from the document gives null is false of the code. -/
theorem resolveRef_claim_counterexample :
    jlookup sampleDocFields "toString" = none ∧
    resolveRef sampleDoc "#/toString" = some (JValue.jsFun "toString") :=
  ⟨rfl, rfl⟩

/-- C5 (amended): resolveRef returns null for any reference not starting
with "#/"; otherwise it splits the remainder on "/" and walks by
successive JavaScript property lookup, where a step sees the own document
keys first and then the prototype-chain members, returning null as soon
as a segment is visible on neither and otherwise the value reached (it is
a total function, so it never throws); on the sample document the User
reference resolves to exactly the stored object, while a non reference
string and a dangling path give null. -/
theorem resolveRef_contract :
    (∀ (spec : JValue) (ref : String), ref.data.take 2 ≠ ['#', '/'] →
      resolveRef spec ref = none) ∧
    (∀ (spec : JValue) (rest : List Char),
      resolveRef spec (String.mk ('#' :: '/' :: rest)) =
        walkPath spec (splitOnSlash (String.mk rest))) ∧
    (∀ (fields : List (String × JValue)) (key : String) (segs : List String),
      jlookup fields key = none → objProtoMember key = none →
        walkPath (JValue.obj fields) (key :: segs) = none) ∧
    resolveRef sampleDoc "#/components/schemas/User" = some userSchema ∧
    resolveRef sampleDoc "not-a-ref" = none ∧
    resolveRef sampleDoc "#/nonexistent/path" = none := by
  refine ⟨?_, ?_, ?_, ?_, ?_, ?_⟩
  · intro spec ref h
    unfold resolveRef
    split
    · next rest heq => exact absurd (by rw [heq]; rfl) h
    · rfl
  · intro spec rest
    rfl
  · intro fields key segs h1 h2
    simp [walkPath, h1, h2]
  · rfl
  · rfl
  · rfl

/-- C7: the spec loader is total success or total failure: a response with
a non-success status yields exactly the single descriptive error, and a
success response yields exactly its body parsed as one document. -/
theorem fetch_spec_loader :
    ∀ r : SpecResponse,
      fetchOpenAPISpec r =
        (if r.ok then Except.ok r.body
         else Except.error "Failed to fetch OpenAPI spec") ∧
      (fetchOpenAPISpec r).isOk = r.ok := by
  intro r
  refine ⟨rfl, ?_⟩
  rcases r with ⟨ok, body⟩
  cases ok <;> rfl

/-- C8: the normalizer is deterministic: parseEndpoints and
groupByCategory are pure functions, so re-running either on the same
input yields structurally identical output. -/
theorem normalization_idempotent :
    ∀ (spec : OpenAPISpec) (le : String → String → Bool)
      (eps : List ParsedEndpoint),
      parseEndpoints spec = parseEndpoints spec ∧
      groupByCategory le eps = groupByCategory le eps :=
  fun _ _ _ => ⟨rfl, rfl⟩

/-! ### Lemmas about parseEndpoints -/

theorem mem_methodsList : ∀ m : HttpMethod, m ∈ methodsList := by
  intro m; cases m <;> decide

theorem nodup_methodsList : methodsList.Nodup := by decide

theorem methodStr_beq (a b : HttpMethod) : (methodStr a == methodStr b) = (a == b) := by
  cases a <;> cases b <;> decide

theorem length_filter_filterMap {α β : Type} (f : α → Option β) (q : β → Bool)
    (l : List α) :
    ((l.filterMap f).filter q).length =
      l.countP (fun a => ((f a).map q).getD false) := by
  induction l with
  | nil => rfl
  | cons a t ih =>
    rw [List.filterMap_cons, List.countP_cons]
    cases hf : f a with
    | none => simp [hf, ih]
    | some b =>
      cases hq : q b
      · simp [List.filter_cons, hf, hq, ih]
      · simp [List.filter_cons, hf, hq, ih]

theorem countP_and_beq {α : Type} [DecidableEq α] (c : α → Bool) (m : α) :
    ∀ (l : List α), l.Nodup → m ∈ l →
      l.countP (fun x => c x && (x == m)) = if c m then 1 else 0 := by
  intro l
  induction l with
  | nil => intro _ hm; cases hm
  | cons a t ih =>
    intro hnd hm
    rw [List.countP_cons]
    rcases List.nodup_cons.mp hnd with ⟨hat, hndt⟩
    rcases List.mem_cons.mp hm with rfl | hmt
    · have hz : t.countP (fun x => c x && (x == m)) = 0 := by
        apply List.countP_eq_zero.mpr
        intro x hx
        have hxm : (x == m) = false := by
          have : x ≠ m := fun hxm => hat (hxm ▸ hx)
          simpa using this
        simp [hxm]
      rw [hz]
      simp
    · have ham : (a == m) = false := by
        have : a ≠ m := fun ham => hat (ham ▸ hmt)
        simpa using this
      rw [ih hndt hmt]
      simp [ham]

theorem countKey_entryEndpoints (q : String) (item : PathItem) (p : String)
    (m : HttpMethod) :
    countKey (entryEndpoints q item) p (methodStr m) =
      if q = p ∧ (itemOp item m).isSome then 1 else 0 := by
  unfold countKey entryEndpoints
  rw [length_filter_filterMap]
  have hcong : ∀ x ∈ methodsList,
      ((((itemOp item x).map (endpointOfOp q x)).map
        (fun e => e.path == p && e.method == methodStr m)).getD false) = true ↔
      ((((itemOp item x).isSome && (q == p)) && (x == m)) = true) := by
    intro x _
    cases ho : itemOp item x with
    | none => simp [ho]
    | some op =>
      simp only [ho, Option.map_some', Option.getD_some, Option.isSome_some,
        Bool.true_and, endpointOfOp]
      rw [methodStr_beq]
  rw [List.countP_congr hcong,
    countP_and_beq _ m methodsList nodup_methodsList (mem_methodsList m)]
  by_cases h1 : q = p <;> by_cases h2 : (itemOp item m).isSome = true <;>
    simp [h1, h2]

theorem mem_entryEndpoints {e : ParsedEndpoint} {q : String} {item : PathItem}
    (h : e ∈ entryEndpoints q item) : e.path = q ∧ ∃ m, e.method = methodStr m := by
  unfold entryEndpoints at h
  rcases List.mem_filterMap.mp h with ⟨m, _, hm⟩
  rcases Option.map_eq_some'.mp hm with ⟨op, _, he⟩
  subst he
  exact ⟨rfl, m, rfl⟩

theorem countKey_append (l1 l2 : List ParsedEndpoint) (p ms : String) :
    countKey (l1 ++ l2) p ms = countKey l1 p ms + countKey l2 p ms := by
  simp [countKey, List.filter_append]

theorem countKey_eq_zero {l : List ParsedEndpoint} {p ms : String}
    (h : ∀ e ∈ l, e.path ≠ p) : countKey l p ms = 0 := by
  have hf : l.filter (fun e => e.path == p && e.method == ms) = [] := by
    apply List.filter_eq_nil_iff.mpr
    intro e he
    simp [h e he]
  simp [countKey, hf]

theorem lookupPath_eq_none {l : List (String × PathItem)} {p : String}
    (h : p ∉ l.map Prod.fst) : lookupPath l p = none := by
  induction l with
  | nil => rfl
  | cons a t ih =>
    rcases a with ⟨k, v⟩
    have hk : k ≠ p := by
      intro hk
      exact h (by simp [hk])
    rw [lookupPath, if_neg hk]
    exact ih (fun hm => h (List.mem_cons_of_mem _ hm))

theorem countKey_flatMap_zero {l : List (String × PathItem)} {p ms : String}
    (h : p ∉ l.map Prod.fst) :
    countKey (l.flatMap (fun e => entryEndpoints e.1 e.2)) p ms = 0 := by
  apply countKey_eq_zero
  intro e he
  rcases List.mem_flatMap.mp he with ⟨⟨q, item⟩, hq, hm⟩
  rw [(mem_entryEndpoints hm).1]
  intro hqp
  subst hqp
  exact h (List.mem_map_of_mem Prod.fst hq)

theorem countKey_flatMap_core :
    ∀ (l : List (String × PathItem)), (l.map Prod.fst).Nodup →
      ∀ (p : String) (m : HttpMethod),
      countKey (l.flatMap (fun e => entryEndpoints e.1 e.2)) p (methodStr m) =
        (match lookupPath l p with
         | some item => if (itemOp item m).isSome then 1 else 0
         | none => 0) := by
  intro l
  induction l with
  | nil => intro _ p m; rfl
  | cons a t ih =>
    rcases a with ⟨q, item⟩
    intro hnd p m
    simp only [List.map_cons] at hnd
    rcases List.nodup_cons.mp hnd with ⟨hq, hndt⟩
    rw [List.flatMap_cons, countKey_append, countKey_entryEndpoints]
    by_cases hqp : q = p
    · subst hqp
      rw [countKey_flatMap_zero hq, lookupPath, if_pos rfl]
      by_cases h2 : (itemOp item m).isSome = true <;> simp [h2]
    · rw [ih hndt p m, lookupPath, if_neg hqp]
      simp [hqp]

/-! ### Claim theorem for parseEndpoints -/

/-- C2: for a document whose path keys are distinct (as the keys of a JSON
object are), parseEndpoints produces exactly one record for every
(path, method) pair whose operation is present, zero records for every
absent pair, and nothing but records for the seven scanned methods. -/
theorem parseEndpoints_exactly_once (spec : OpenAPISpec)
    (hnd : (spec.paths.map Prod.fst).Nodup) :
    (∀ (p : String) (m : HttpMethod),
      countKey (parseEndpoints spec) p (methodStr m) =
        if (opAt spec p m).isSome then 1 else 0) ∧
    (∀ e ∈ parseEndpoints spec, ∃ m, e.method = methodStr m) := by
  constructor
  · intro p m
    rw [show parseEndpoints spec = spec.paths.flatMap (fun e => entryEndpoints e.1 e.2)
      from rfl]
    rw [countKey_flatMap_core spec.paths hnd p m]
    unfold opAt
    rcases h : lookupPath spec.paths p with _ | item <;> simp
  · intro e he
    rcases List.mem_flatMap.mp he with ⟨⟨q, item⟩, _, hm⟩
    exact (mem_entryEndpoints hm).2

/-- Witness for C2 at the sample fixture. -/
theorem parseEndpoints_exactly_once_witness :
    (sampleSpecOne.paths.map Prod.fst).Nodup ∧
    (∀ (p : String) (m : HttpMethod),
      countKey (parseEndpoints sampleSpecOne) p (methodStr m) =
        if (opAt sampleSpecOne p m).isSome then 1 else 0) :=
  ⟨by decide, (parseEndpoints_exactly_once sampleSpecOne (by decide)).1⟩

/-! ### Lemmas about the order of parseEndpoints output -/

theorem filter_entryEndpoints_self (q : String) (item : PathItem) :
    (entryEndpoints q item).filter (fun e => e.path == q) = entryEndpoints q item := by
  apply List.filter_eq_self.mpr
  intro e he
  simp [(mem_entryEndpoints he).1]

theorem filter_entryEndpoints_ne {q p : String} (item : PathItem) (h : q ≠ p) :
    (entryEndpoints q item).filter (fun e => e.path == p) = [] := by
  apply List.filter_eq_nil_iff.mpr
  intro e he
  simp [(mem_entryEndpoints he).1, h]

theorem filter_flatMap_eq :
    ∀ (l : List (String × PathItem)), (l.map Prod.fst).Nodup → ∀ (p : String),
      (l.flatMap (fun e => entryEndpoints e.1 e.2)).filter (fun e => e.path == p) =
        (match lookupPath l p with
         | some item => entryEndpoints p item
         | none => []) := by
  intro l
  induction l with
  | nil => intro _ p; rfl
  | cons a t ih =>
    rcases a with ⟨q, item⟩
    intro hnd p
    simp only [List.map_cons] at hnd
    rcases List.nodup_cons.mp hnd with ⟨hq, hndt⟩
    rw [List.flatMap_cons, List.filter_append]
    by_cases hqp : q = p
    · subst hqp
      rw [filter_entryEndpoints_self q item, lookupPath, if_pos rfl]
      have hrest : ((t.flatMap (fun e => entryEndpoints e.1 e.2)).filter
          (fun e => e.path == q)) = [] := by
        rw [ih hndt q, lookupPath_eq_none hq]
      rw [hrest, List.append_nil]
    · rw [filter_entryEndpoints_ne item hqp, List.nil_append, lookupPath, if_neg hqp,
        ih hndt p]

theorem flatMap_decomp :
    ∀ (l : List (String × PathItem)) (p : String) (item : PathItem),
      lookupPath l p = some item →
      ∃ s t, l.flatMap (fun e => entryEndpoints e.1 e.2) =
        s ++ entryEndpoints p item ++ t := by
  intro l
  induction l with
  | nil => intro p item h; cases h
  | cons a t ih =>
    rcases a with ⟨k, v⟩
    intro p item h
    rw [lookupPath] at h
    rw [List.flatMap_cons]
    by_cases hkp : k = p
    · subst hkp
      rw [if_pos rfl] at h
      cases h
      exact ⟨[], t.flatMap (fun e => entryEndpoints e.1 e.2), by simp⟩
    · rw [if_neg hkp] at h
      rcases ih p item h with ⟨s, u, hsu⟩
      exact ⟨entryEndpoints k v ++ s, u, by rw [hsu]; simp [List.append_assoc]⟩

theorem map_method_filterMap (q : String) (item : PathItem) :
    ∀ (l : List HttpMethod),
      ((l.filterMap (fun m => (itemOp item m).map (endpointOfOp q m))).map
        (fun e => e.method)) =
      (l.filter (fun m => (itemOp item m).isSome)).map methodStr := by
  intro l
  induction l with
  | nil => rfl
  | cons a t ih =>
    rw [List.filterMap_cons, List.filter_cons]
    cases ho : itemOp item a with
    | none => simp [ho, ih]
    | some op => simp [ho, ih, endpointOfOp]

/-! ### Claim theorem for the implicit ordering of parseEndpoints -/

/-- C9: with distinct path keys, the parseEndpoints output lists all
endpoints of one path consecutively (the filtered sub-list is a contiguous
segment), the methods within one path appear as a sub-list of the fixed
order GET, POST, PUT, DELETE, PATCH, OPTIONS, HEAD, and every record
method is one of those seven uppercase names. -/
theorem parseEndpoints_ordering (spec : OpenAPISpec)
    (hnd : (spec.paths.map Prod.fst).Nodup) :
    (∀ p, ∃ s t, parseEndpoints spec =
      s ++ ((parseEndpoints spec).filter (fun e => e.path == p)) ++ t) ∧
    (∀ p, (((parseEndpoints spec).filter (fun e => e.path == p)).map
      (fun e => e.method)).Sublist (methodsList.map methodStr)) ∧
    (∀ e ∈ parseEndpoints spec, e.method ∈ methodsList.map methodStr) := by
  refine ⟨?_, ?_, ?_⟩
  · intro p
    rw [show parseEndpoints spec = spec.paths.flatMap (fun e => entryEndpoints e.1 e.2)
      from rfl]
    rw [filter_flatMap_eq spec.paths hnd p]
    rcases h : lookupPath spec.paths p with _ | item
    · exact ⟨spec.paths.flatMap (fun e => entryEndpoints e.1 e.2), [], by simp⟩
    · exact flatMap_decomp spec.paths p item h
  · intro p
    rw [show parseEndpoints spec = spec.paths.flatMap (fun e => entryEndpoints e.1 e.2)
      from rfl]
    rw [filter_flatMap_eq spec.paths hnd p]
    rcases h : lookupPath spec.paths p with _ | item
    · exact List.nil_sublist _
    · show ((methodsList.filterMap (fun m => (itemOp item m).map
        (endpointOfOp p m))).map (fun e => e.method)).Sublist (methodsList.map methodStr)
      rw [map_method_filterMap p item methodsList]
      exact List.Sublist.map methodStr (List.filter_sublist methodsList)
  · intro e he
    rcases List.mem_flatMap.mp he with ⟨⟨q, item⟩, _, hm⟩
    rcases (mem_entryEndpoints hm).2 with ⟨m, hme⟩
    rw [hme]
    exact List.mem_map_of_mem methodStr (mem_methodsList m)

/-- Witness for C9 at the sample fixture. -/
theorem parseEndpoints_ordering_witness :
    (sampleSpecOne.paths.map Prod.fst).Nodup ∧
    (∀ e ∈ parseEndpoints sampleSpecOne, e.method ∈ methodsList.map methodStr) :=
  ⟨by decide, (parseEndpoints_ordering sampleSpecOne (by decide)).2.2⟩

/-! ### Lemmas about groupByCategory -/

theorem lookupGroup_nil (q : String) : lookupGroup [] q = none := rfl

theorem lookupGroup_cons (k : String) (v : List ParsedEndpoint)
    (rest : List (String × List ParsedEndpoint)) (q : String) :
    lookupGroup ((k, v) :: rest) q = if k = q then some v else lookupGroup rest q := rfl

theorem insertEndpoint_nil (c : String) (e : ParsedEndpoint) :
    insertEndpoint [] c e = [(c, [e])] := rfl

theorem insertEndpoint_cons (k : String) (v : List ParsedEndpoint)
    (rest : List (String × List ParsedEndpoint)) (c : String) (e : ParsedEndpoint) :
    insertEndpoint ((k, v) :: rest) c e =
      if k = c then (k, v ++ [e]) :: rest else (k, v) :: insertEndpoint rest c e := rfl

theorem insertEndpoint_keys (m : List (String × List ParsedEndpoint)) (c : String)
    (e : ParsedEndpoint) :
    (insertEndpoint m c e).map Prod.fst =
      if c ∈ m.map Prod.fst then m.map Prod.fst else m.map Prod.fst ++ [c] := by
  induction m with
  | nil => simp [insertEndpoint_nil]
  | cons a t ih =>
    rcases a with ⟨k, l⟩
    by_cases hk : k = c
    · subst hk
      rw [insertEndpoint_cons, if_pos rfl]
      simp
    · rw [insertEndpoint_cons, if_neg hk]
      simp only [List.map_cons]
      rw [ih]
      by_cases hc : c ∈ t.map Prod.fst
      · rw [if_pos hc, if_pos (by simp [hc])]
      · rw [if_neg hc, if_neg (by
          simp only [List.mem_cons]
          rintro (hck | hmem)
          · exact hk hck.symm
          · exact hc hmem)]
        simp

theorem insertEndpoint_keys_nodup {m : List (String × List ParsedEndpoint)}
    (hnd : (m.map Prod.fst).Nodup) (c : String) (e : ParsedEndpoint) :
    ((insertEndpoint m c e).map Prod.fst).Nodup := by
  rw [insertEndpoint_keys]
  by_cases hc : c ∈ m.map Prod.fst
  · rw [if_pos hc]; exact hnd
  · rw [if_neg hc]
    simp [List.nodup_append, hnd, hc]

theorem groupPairs_keys_nodup :
    ∀ (eps : List ParsedEndpoint) (acc : List (String × List ParsedEndpoint)),
      (acc.map Prod.fst).Nodup →
      (((eps.foldl (fun m e => insertEndpoint m e.category e) acc).map
        Prod.fst)).Nodup := by
  intro eps
  induction eps with
  | nil => intro acc h; exact h
  | cons e t ih =>
    intro acc h
    exact ih _ (insertEndpoint_keys_nodup h _ _)

theorem lookupGroup_insert (m : List (String × List ParsedEndpoint)) (c : String)
    (e : ParsedEndpoint) (q : String) :
    lookupGroup (insertEndpoint m c e) q =
      if q = c then some ((lookupGroup m c).getD [] ++ [e]) else lookupGroup m q := by
  induction m with
  | nil =>
    rw [insertEndpoint_nil, lookupGroup_cons]
    by_cases h : q = c
    · rw [if_pos h.symm, if_pos h, lookupGroup_nil]
      rfl
    · rw [if_neg (fun hh : c = q => h hh.symm), if_neg h]
  | cons a t ih =>
    rcases a with ⟨k, l⟩
    by_cases hk : k = c
    · subst hk
      rw [insertEndpoint_cons, if_pos rfl, lookupGroup_cons]
      by_cases h : q = k
      · rw [if_pos h.symm, if_pos h, lookupGroup_cons, if_pos rfl]
        rfl
      · rw [if_neg (fun hh : k = q => h hh.symm), if_neg h, lookupGroup_cons,
          if_neg (fun hh : k = q => h hh.symm)]
    · rw [insertEndpoint_cons, if_neg hk, lookupGroup_cons]
      by_cases h : q = k
      · rw [if_pos h.symm, if_neg (fun hq : q = c => hk (h.symm.trans hq)),
          lookupGroup_cons, if_pos h.symm]
      · rw [if_neg (fun hh : k = q => h hh.symm), ih]
        by_cases hqc : q = c
        · rw [if_pos hqc, if_pos hqc, lookupGroup_cons, if_neg hk]
        · rw [if_neg hqc, if_neg hqc, lookupGroup_cons,
            if_neg (fun hh : k = q => h hh.symm)]

theorem lookupGroup_fold :
    ∀ (eps : List ParsedEndpoint) (acc : List (String × List ParsedEndpoint))
      (c : String),
      lookupGroup (eps.foldl (fun m e => insertEndpoint m e.category e) acc) c =
        combineGroup (lookupGroup acc c) (eps.filter (fun e => e.category == c)) := by
  intro eps
  induction eps with
  | nil =>
    intro acc c
    cases h : lookupGroup acc c <;> simp [combineGroup, h]
  | cons e t ih =>
    intro acc c
    rw [List.foldl_cons, ih, lookupGroup_insert, List.filter_cons]
    by_cases hc : e.category = c
    · subst hc
      rw [if_pos rfl, if_pos (by simp)]
      cases hacc : lookupGroup acc e.category with
      | none => simp [combineGroup, hacc]
      | some l => simp [combineGroup, hacc, List.append_assoc]
    · rw [if_neg (fun hh : c = e.category => hc hh.symm), if_neg (by simp [hc])]

theorem mem_lookupGroup {m : List (String × List ParsedEndpoint)}
    (hnd : (m.map Prod.fst).Nodup) {c : String} {l : List ParsedEndpoint}
    (h : (c, l) ∈ m) : lookupGroup m c = some l := by
  induction m with
  | nil => cases h
  | cons a t ih =>
    rcases a with ⟨k, v⟩
    simp only [List.map_cons] at hnd
    rcases List.nodup_cons.mp hnd with ⟨hk, hndt⟩
    rcases List.mem_cons.mp h with heq | hmem
    · injection heq with h1 h2
      subst h1
      subst h2
      rw [lookupGroup_cons, if_pos rfl]
    · have hkc : k ≠ c := by
        intro hkc
        subst hkc
        exact hk (List.mem_map_of_mem Prod.fst hmem)
      rw [lookupGroup_cons, if_neg hkc]
      exact ih hndt hmem

theorem flatten_insertEndpoint (m : List (String × List ParsedEndpoint)) (c : String)
    (e : ParsedEndpoint) :
    ((insertEndpoint m c e).map Prod.snd).flatten.Perm
      ((m.map Prod.snd).flatten ++ [e]) := by
  induction m with
  | nil => simp [insertEndpoint_nil]
  | cons a t ih =>
    rcases a with ⟨k, l⟩
    by_cases hk : k = c
    · rw [insertEndpoint_cons, if_pos hk]
      simp only [List.map_cons, List.flatten_cons]
      rw [List.append_assoc, List.append_assoc]
      exact List.Perm.append_left l List.perm_append_comm
    · rw [insertEndpoint_cons, if_neg hk]
      simp only [List.map_cons, List.flatten_cons]
      rw [List.append_assoc]
      exact List.Perm.append_left l ih

theorem flatten_groupFold :
    ∀ (eps : List ParsedEndpoint) (acc : List (String × List ParsedEndpoint)),
      (((eps.foldl (fun m e => insertEndpoint m e.category e) acc).map
        Prod.snd).flatten).Perm ((acc.map Prod.snd).flatten ++ eps) := by
  intro eps
  induction eps with
  | nil => intro acc; simp
  | cons e t ih =>
    intro acc
    rw [List.foldl_cons]
    refine (ih _).trans ?_
    refine ((flatten_insertEndpoint acc e.category e).append_right t).trans ?_
    rw [List.append_assoc]
    exact List.Perm.refl _

theorem map_name_categories (pl : List (String × List ParsedEndpoint)) :
    ((pl.map (fun p => Category.mk p.1 p.2)).map (fun c => c.name)) =
      pl.map Prod.fst := by
  induction pl with
  | nil => rfl
  | cons a t ih => simp [ih]

theorem map_endpoints_categories (pl : List (String × List ParsedEndpoint)) :
    ((pl.map (fun p => Category.mk p.1 p.2)).map (fun c => c.endpoints)) =
      pl.map Prod.snd := by
  induction pl with
  | nil => rfl
  | cons a t ih => simp [ih]

/-! ### Claim theorem for groupByCategory -/

/-- C3: for any total preorder used as the locale comparison,
groupByCategory yields pairwise distinct category names, its buckets
together are a permutation of the input, each bucket holds exactly the
input endpoints of its category in input order (it equals the input
filtered to that category), and the buckets are sorted ascending by the
comparison. -/
theorem groupByCategory_spec (le : String → String → Bool)
    (htrans : ∀ a b c, le a b = true → le b c = true → le a c = true)
    (htot : ∀ a b, le a b = true ∨ le b a = true)
    (eps : List ParsedEndpoint) :
    ((groupByCategory le eps).map (fun c => c.name)).Nodup ∧
    (((groupByCategory le eps).map (fun c => c.endpoints)).flatten).Perm eps ∧
    (∀ c ∈ groupByCategory le eps,
      c.endpoints = eps.filter (fun e => e.category == c.name)) ∧
    (groupByCategory le eps).Pairwise (fun a b => le a.name b.name = true) := by
  have hperm : (groupByCategory le eps).Perm
      ((groupPairs eps).map (fun p => Category.mk p.1 p.2)) :=
    List.mergeSort_perm _ _
  have hnd : ((groupPairs eps).map Prod.fst).Nodup :=
    groupPairs_keys_nodup eps [] (by simp)
  refine ⟨?_, ?_, ?_, ?_⟩
  · have h1 := (hperm.map (fun c => c.name)).nodup_iff
    rw [h1, map_name_categories]
    exact hnd
  · have h1 : (((groupByCategory le eps).map (fun c => c.endpoints)).flatten).Perm
        ((((groupPairs eps).map (fun p => Category.mk p.1 p.2)).map
          (fun c => c.endpoints)).flatten) :=
      (hperm.map (fun c => c.endpoints)).flatten
    rw [map_endpoints_categories] at h1
    refine h1.trans ?_
    simpa [groupPairs] using flatten_groupFold eps []
  · intro c hc
    have hc2 : c ∈ (groupPairs eps).map (fun p => Category.mk p.1 p.2) :=
      hperm.mem_iff.mp hc
    rcases List.mem_map.mp hc2 with ⟨⟨n, l⟩, hmem, hmk⟩
    have hname : c.name = n := by rw [← hmk]
    have hendp : c.endpoints = l := by rw [← hmk]
    have hl : lookupGroup (groupPairs eps) n = some l := mem_lookupGroup hnd hmem
    rw [show groupPairs eps =
      eps.foldl (fun m e => insertEndpoint m e.category e) [] from rfl,
      lookupGroup_fold eps [] n, lookupGroup_nil] at hl
    unfold combineGroup at hl
    rcases hf : eps.filter (fun e => e.category == n) with _ | ⟨x, xs⟩
    · rw [hf] at hl
      simp at hl
    · rw [hf] at hl
      simp only [List.isEmpty_cons, Bool.false_eq_true, reduceIte,
        Option.some.injEq] at hl
      rw [hname, hendp, ← hl, hf]
  · exact @List.sorted_mergeSort Category
      (fun a b : Category => le a.name b.name)
      (fun a b c hab hbc => htrans a.name b.name c.name hab hbc)
      (fun a b => by rcases htot a.name b.name with h | h <;> simp [h])
      ((groupPairs eps).map (fun p => Category.mk p.1 p.2))

/-- Witness for C3 at the sample fixture with a concrete total preorder. -/
theorem groupByCategory_spec_witness :
    (∀ a b c : String, leLen a b = true → leLen b c = true → leLen a c = true) ∧
    (∀ a b : String, leLen a b = true ∨ leLen b a = true) ∧
    (((groupByCategory leLen sampleEndpointList).map (fun c => c.name)).Nodup ∧
     (((groupByCategory leLen sampleEndpointList).map
        (fun c => c.endpoints)).flatten).Perm sampleEndpointList ∧
     (∀ c ∈ groupByCategory leLen sampleEndpointList,
       c.endpoints = sampleEndpointList.filter (fun e => e.category == c.name)) ∧
     (groupByCategory leLen sampleEndpointList).Pairwise
       (fun a b => leLen a.name b.name = true)) := by
  refine ⟨?_, ?_, ?_⟩
  · intro a b c h1 h2
    simp only [leLen, decide_eq_true_eq] at *
    omega
  · intro a b
    simp only [leLen, decide_eq_true_eq]
    omega
  · exact groupByCategory_spec leLen
      (by intro a b c h1 h2; simp only [leLen, decide_eq_true_eq] at *; omega)
      (by intro a b; simp only [leLen, decide_eq_true_eq]; omega)
      sampleEndpointList

/-! ### Lemmas about the two-document normalizer -/

theorem avail_fields {pre st : OpenAPISpec} {p : String} {m : HttpMethod}
    {e : ParsedEndpointA} (h : availEndpoint pre st p m = some e) :
    e.path = p ∧ e.method = methodStr m := by
  unfold availEndpoint at h
  rcases hp : opAt pre p m with _ | op1 <;> rcases hs : opAt st p m with _ | op2 <;>
      rw [hp, hs] at h
  · exact Option.noConfusion h
  · injection h with h2; subst h2; exact ⟨rfl, rfl⟩
  · injection h with h2; subst h2; exact ⟨rfl, rfl⟩
  · injection h with h2; subst h2; exact ⟨rfl, rfl⟩

theorem avail_availability {pre st : OpenAPISpec} {p : String} {m : HttpMethod}
    {e : ParsedEndpointA} (h : availEndpoint pre st p m = some e) :
    (e.availability = EndpointAvailability.both ↔
      (hasOp pre p m = true ∧ hasOp st p m = true)) ∧
    (e.availability = EndpointAvailability.previewOnly ↔
      (hasOp pre p m = true ∧ hasOp st p m = false)) ∧
    (e.availability = EndpointAvailability.stableOnly ↔
      (hasOp pre p m = false ∧ hasOp st p m = true)) := by
  unfold availEndpoint at h
  unfold hasOp
  rcases hp : opAt pre p m with _ | op1 <;> rcases hs : opAt st p m with _ | op2 <;>
      rw [hp, hs] at h
  · exact Option.noConfusion h
  · injection h with h2; subst h2; simp [hp, hs]
  · injection h with h2; subst h2; simp [hp, hs]
  · injection h with h2; subst h2; simp [hp, hs]

theorem avail_isSome (pre st : OpenAPISpec) (p : String) (m : HttpMethod) :
    (availEndpoint pre st p m).isSome = (hasOp pre p m || hasOp st p m) := by
  unfold availEndpoint hasOp
  rcases hp : opAt pre p m with _ | op1 <;> rcases hs : opAt st p m with _ | op2 <;>
    simp [hp, hs]

theorem countKeyA_append (l1 l2 : List ParsedEndpointA) (p ms : String) :
    countKeyA (l1 ++ l2) p ms = countKeyA l1 p ms + countKeyA l2 p ms := by
  simp [countKeyA, List.filter_append]

theorem countKeyA_eq_zero {l : List ParsedEndpointA} {p ms : String}
    (h : ∀ e ∈ l, e.path ≠ p) : countKeyA l p ms = 0 := by
  have hf : l.filter (fun e => e.path == p && e.method == ms) = [] := by
    apply List.filter_eq_nil_iff.mpr
    intro e he
    simp [h e he]
  simp [countKeyA, hf]

theorem countKeyA_pathBlock (pre st : OpenAPISpec) (q p : String) (m : HttpMethod) :
    countKeyA (methodsList.filterMap (fun x => availEndpoint pre st q x)) p
      (methodStr m) =
      if q = p ∧ (hasOp pre q m || hasOp st q m) = true then 1 else 0 := by
  unfold countKeyA
  rw [length_filter_filterMap]
  have hcong : ∀ x ∈ methodsList,
      (((availEndpoint pre st q x).map
        (fun e => e.path == p && e.method == methodStr m)).getD false) = true ↔
      ((((availEndpoint pre st q x).isSome && (q == p)) && (x == m)) = true) := by
    intro x _
    cases ho : availEndpoint pre st q x with
    | none => simp [ho]
    | some e =>
      obtain ⟨hp2, hm2⟩ := avail_fields ho
      simp only [ho, Option.map_some', Option.getD_some, Option.isSome_some,
        Bool.true_and]
      rw [hp2, hm2, methodStr_beq]
  rw [List.countP_congr hcong,
    countP_and_beq _ m methodsList nodup_methodsList (mem_methodsList m),
    avail_isSome]
  by_cases h1 : q = p <;> by_cases h2 : (hasOp pre q m || hasOp st q m) = true <;>
    simp [h1, h2]

theorem countKeyA_flatMap_zero {pre st : OpenAPISpec} {L : List String}
    {p ms : String} (h : p ∉ L) :
    countKeyA (L.flatMap (fun q => methodsList.filterMap
      (fun x => availEndpoint pre st q x))) p ms = 0 := by
  apply countKeyA_eq_zero
  intro e he
  rcases List.mem_flatMap.mp he with ⟨q, hq, hm⟩
  rcases List.mem_filterMap.mp hm with ⟨x, _, hx⟩
  rw [(avail_fields hx).1]
  intro hqp
  subst hqp
  exact h hq

theorem countKeyA_flatMap_core (pre st : OpenAPISpec) :
    ∀ (L : List String), L.Nodup → ∀ (p : String) (m : HttpMethod),
      countKeyA (L.flatMap (fun q => methodsList.filterMap
        (fun x => availEndpoint pre st q x))) p (methodStr m) =
        if p ∈ L ∧ (hasOp pre p m || hasOp st p m) = true then 1 else 0 := by
  intro L
  induction L with
  | nil => intro _ p m; simp [countKeyA]
  | cons q t ih =>
    intro hnd p m
    rcases List.nodup_cons.mp hnd with ⟨hq, hndt⟩
    rw [List.flatMap_cons, countKeyA_append, countKeyA_pathBlock, ih hndt p m]
    by_cases hqp : q = p
    · subst hqp
      by_cases h2 : (hasOp pre q m || hasOp st q m) = true <;>
        simp [h2, hq, List.mem_cons]
    · have hpq : p ≠ q := fun hh => hqp hh.symm
      simp [hqp, List.mem_cons, hpq]

theorem hasOp_mem {spec : OpenAPISpec} {p : String} {m : HttpMethod}
    (h : hasOp spec p m = true) : p ∈ spec.paths.map Prod.fst := by
  unfold hasOp opAt at h
  by_contra hn
  rw [lookupPath_eq_none hn] at h
  simp at h

theorem mem_unionPaths {pre st : OpenAPISpec} {p : String} :
    p ∈ unionPaths pre st ↔
      p ∈ pre.paths.map Prod.fst ∨ p ∈ st.paths.map Prod.fst := by
  unfold unionPaths
  simp only [List.mem_append, List.mem_filter, Bool.not_eq_true']
  constructor
  · rintro (h | ⟨h, _⟩)
    · exact Or.inl h
    · exact Or.inr h
  · rintro (h | h)
    · exact Or.inl h
    · by_cases hp : p ∈ pre.paths.map Prod.fst
      · exact Or.inl hp
      · refine Or.inr ⟨h, ?_⟩
        simpa using hp

theorem nodup_unionPaths {pre st : OpenAPISpec}
    (hpre : (pre.paths.map Prod.fst).Nodup) (hst : (st.paths.map Prod.fst).Nodup) :
    (unionPaths pre st).Nodup := by
  unfold unionPaths
  rw [List.nodup_append]
  refine ⟨hpre, hst.filter _, ?_⟩
  intro a ha hafil
  rcases List.mem_filter.mp hafil with ⟨_, hcon⟩
  rw [Bool.not_eq_true'] at hcon
  exact absurd ha (by simpa using hcon)

/-! ### Claim theorem for the two-document normalizer -/

/-- C1: for documents with distinct path keys, the two-document normalizer
produces exactly one availability-tagged endpoint for every (method, path)
key in the union of the two operation sets and none otherwise, and each
produced endpoint carries availability both precisely when its key is in
both sets, preview-only precisely when it is only in the preview set, and
stable-only precisely when it is only in the stable set. -/
theorem parseWithAvailability_spec (pre st : OpenAPISpec)
    (hpre : (pre.paths.map Prod.fst).Nodup)
    (hst : (st.paths.map Prod.fst).Nodup) :
    (∀ (p : String) (m : HttpMethod),
      countKeyA (parseEndpointsWithAvailability pre st) p (methodStr m) =
        if (hasOp pre p m || hasOp st p m) = true then 1 else 0) ∧
    (∀ e ∈ parseEndpointsWithAvailability pre st, ∃ m : HttpMethod,
      e.method = methodStr m ∧
      (e.availability = EndpointAvailability.both ↔
        (hasOp pre e.path m = true ∧ hasOp st e.path m = true)) ∧
      (e.availability = EndpointAvailability.previewOnly ↔
        (hasOp pre e.path m = true ∧ hasOp st e.path m = false)) ∧
      (e.availability = EndpointAvailability.stableOnly ↔
        (hasOp pre e.path m = false ∧ hasOp st e.path m = true))) := by
  constructor
  · intro p m
    rw [show parseEndpointsWithAvailability pre st = (unionPaths pre st).flatMap
      (fun q => methodsList.filterMap (fun x => availEndpoint pre st q x)) from rfl]
    rw [countKeyA_flatMap_core pre st _ (nodup_unionPaths hpre hst) p m]
    by_cases h2 : (hasOp pre p m || hasOp st p m) = true
    · have hmem : p ∈ unionPaths pre st := by
        rcases Bool.or_eq_true_iff.mp h2 with h | h
        · exact mem_unionPaths.mpr (Or.inl (hasOp_mem h))
        · exact mem_unionPaths.mpr (Or.inr (hasOp_mem h))
      rw [if_pos ⟨hmem, h2⟩, if_pos h2]
    · rw [if_neg h2, if_neg (fun hc => h2 hc.2)]
  · intro e he
    rcases List.mem_flatMap.mp he with ⟨q, _, hm⟩
    rcases List.mem_filterMap.mp hm with ⟨x, _, hx⟩
    obtain ⟨hp, hmth⟩ := avail_fields hx
    obtain ⟨h1, h2, h3⟩ := avail_availability hx
    refine ⟨x, hmth, ?_, ?_, ?_⟩ <;> rw [hp] <;> assumption

/-- Witness for C1 at the two-document fixture of the specification:
/a GET in both, /b GET preview only, /c POST stable only. -/
theorem parseWithAvailability_spec_witness :
    (previewFixture.paths.map Prod.fst).Nodup ∧
    (stableFixture.paths.map Prod.fst).Nodup ∧
    (∀ (p : String) (m : HttpMethod),
      countKeyA (parseEndpointsWithAvailability previewFixture stableFixture) p
        (methodStr m) =
        if (hasOp previewFixture p m || hasOp stableFixture p m) = true
        then 1 else 0) :=
  ⟨by decide, by decide,
    (parseWithAvailability_spec previewFixture stableFixture
      (by decide) (by decide)).1⟩

/-- Witness for C5 at concrete inputs discharging its hypotheses. -/
theorem resolveRef_contract_witness :
    ("zzz".data.take 2 ≠ ['#', '/']) ∧
    resolveRef sampleDoc "zzz" = none ∧
    jlookup [] "missing" = none ∧
    objProtoMember "missing" = none ∧
    walkPath (JValue.obj []) ["missing"] = none :=
  ⟨by decide, resolveRef_contract.1 sampleDoc "zzz" (by decide), rfl, rfl,
    resolveRef_contract.2.2.1 [] "missing" [] rfl rfl⟩

end DiscordDocs
